import Mathlib

/-!
Verification development for the tg-graph interaction-graph core
(`tg_graph/graph_builder.py`, `tg_graph/metrics.py`, `tg_graph/utils.py`).

The Python code is shallowly embedded: messages, catalogs, the multigraph
and the strength maps become explicit Lean data; floats become exact
rationals (`ℚ`); Python dicts become association lists with Python's
get/set semantics; fallible lookups become `Option`.  Python string
methods (`lower`, `split`, `strip`, ...) are modelled on the character
list of the string; Unicode-dependent behaviour (character categories,
case mapping, NFC normalization) is modelled exactly for the ASCII range,
which covers every concrete input used below.
-/

namespace TgGraph

/-- Model of Python string truthiness for an optional string: `None` and
the empty string are falsy. -/
def strTruthy : Option String → Bool
  | none => false
  | some s => s ≠ ""

/-- Model of Python `a or b` on two optional strings: `a` wins unless it
is falsy (`None` or `""`). -/
def pyOr (a b : Option String) : Option String :=
  match a with
  | some s => if s = "" then b else some s
  | none => b

/-- Model of Python `a or d` where `d` is a (truthy) string default. -/
def pyGetOr (a : Option String) (d : String) : String :=
  match a with
  | some s => if s = "" then d else s
  | none => d

/-- Python `dict.get` on a string-keyed catalog, modelled as an
association-list lookup (keys of a dict are unique, so first match). -/
def sget (m : List (String × String)) (k : String) : Option String :=
  (m.find? (fun p => decide (p.1 = k))).map Prod.snd

/-- Model of Python `str.lower` (exact on ASCII, the only case the code
compares: the sentinels `"user"` / `"Unknown"`). -/
def pyLower (s : String) : String :=
  ⟨s.data.map Char.toLower⟩

/-- Model of Python `c in s` for a single character. -/
def pyContains (s : String) (c : Char) : Bool :=
  s.data.contains c

/-- Helper for `pySplitWs`: split a character list on whitespace runs,
dropping empty fields, accumulating the current word reversed. -/
def splitWsAux : List Char → List Char → List String
  | [], cur => if cur = [] then [] else [⟨cur.reverse⟩]
  | c :: rest, cur =>
    if c.isWhitespace then
      if cur = [] then splitWsAux rest []
      else ⟨cur.reverse⟩ :: splitWsAux rest []
    else splitWsAux rest (c :: cur)

/-- Model of Python `str.split()` with no argument: split on whitespace
runs, no empty fields. -/
def pySplitWs (s : String) : List String :=
  splitWsAux s.data []

/-- Model of Python `str.startswith('@')`. -/
def pyStartsAt (w : String) : Bool :=
  match w.data with
  | c :: _ => c = '@'
  | [] => false

/-- Model of Python `str.rstrip('.,!?:;')`: drop trailing characters from
that set (used on mention tokens). -/
def pyRstripPunct (s : String) : String :=
  ⟨(s.data.reverse.dropWhile
      (fun c => c = '.' ∨ c = ',' ∨ c = '!' ∨ c = '?' ∨ c = ':' ∨ c = ';')).reverse⟩

/-- Model of Python `str.lstrip('@')`: drop leading `@` characters. -/
def pyLstripAt (s : String) : String :=
  ⟨s.data.dropWhile (fun c => c = '@')⟩

/-- Model of Python `str.strip()`: drop leading and trailing whitespace. -/
def pyStrip (s : String) : String :=
  ⟨((s.data.dropWhile Char.isWhitespace).reverse.dropWhile Char.isWhitespace).reverse⟩

/-- Unicode general category `C*` (control and friends), modelled for the
Latin-1 range: C0 controls, DEL, and C1 controls. -/
def isCatC (c : Char) : Bool :=
  decide (c.toNat < 32 ∨ (127 ≤ c.toNat ∧ c.toNat ≤ 159))

/-- Unicode general category `S*` (symbols), modelled for the ASCII range:
the ASCII symbol codepoints are dollar 36, plus 43, less 60, equals 61,
greater 62, circumflex 94, grave 96, bar 124, tilde 126. -/
def isCatS (c : Char) : Bool :=
  decide (c.toNat = 36 ∨ c.toNat = 43 ∨ c.toNat = 60 ∨ c.toNat = 61 ∨
    c.toNat = 62 ∨ c.toNat = 94 ∨ c.toNat = 96 ∨ c.toNat = 124 ∨ c.toNat = 126)

/-- Embedding of `utils.sanitize_text`: NFC-normalize (identity on the
modelled character range), drop category-`C` characters, drop
category-`S` characters, escape `$` (note: `$` has category `Sc`, so in
the source the escape branch is shadowed by the symbol drop, and the
embedding keeps that order), then strip surrounding whitespace. -/
def sanitize_text (s : String) : String :=
  pyStrip ⟨(s.data.map (fun c =>
    if isCatC c then []
    else if isCatS c then []
    else if c = '$' then ['\\', '$']
    else [c])).flatten⟩

/-- Two-digit decimal field of an ISO timestamp. -/
def d2 (a b : Char) : Option Nat :=
  if a.isDigit ∧ b.isDigit then some ((a.toNat - 48) * 10 + (b.toNat - 48)) else none

/-- Four-digit decimal field of an ISO timestamp. -/
def d4 (a b c d : Char) : Option Nat :=
  if a.isDigit ∧ b.isDigit ∧ c.isDigit ∧ d.isDigit then
    some ((((a.toNat - 48) * 10 + (b.toNat - 48)) * 10 + (c.toNat - 48)) * 10 + (d.toNat - 48))
  else none

/-- Gregorian leap-year rule. -/
def leapYear (y : Nat) : Bool :=
  decide ((y % 4 = 0 ∧ y % 100 ≠ 0) ∨ y % 400 = 0)

/-- Length of a month in a (non-)leap year; 0 for an invalid month. -/
def monthLen (leap : Bool) : Nat → Nat
  | 1 => 31
  | 2 => if leap then 29 else 28
  | 3 => 31
  | 4 => 30
  | 5 => 31
  | 6 => 30
  | 7 => 31
  | 8 => 31
  | 9 => 30
  | 10 => 31
  | 11 => 30
  | 12 => 31
  | _ => 0

/-- Days in the months strictly before month `m` of such a year. -/
def daysBeforeMonth (leap : Bool) (m : Nat) : Nat :=
  ((List.range m).filter (fun k => decide (1 ≤ k))).foldl
    (fun acc k => acc + monthLen leap k) 0

/-- Day count of a proleptic-Gregorian date from year 1. -/
def epochDays (y m d : Nat) : Nat :=
  365 * (y - 1) + (y - 1) / 4 - (y - 1) / 100 + (y - 1) / 400 +
    daysBeforeMonth (leapYear y) m + (d - 1)

/-- Seconds value of a parsed date plus time-of-day. -/
def dateSeconds (y mo da h mi s : Nat) : Int :=
  ((epochDays y mo da * 86400 + h * 3600 + mi * 60 + s : Nat) : Int)

/-- Parse the optional `+HH:MM` / `-HH:MM` UTC-offset tail of an ISO
timestamp; returns the offset in seconds to subtract. -/
def parseOffset : List Char → Option Int
  | [] => some 0
  | sign :: o1 :: o2 :: ':' :: o3 :: o4 :: [] => do
    let oh ← d2 o1 o2
    let om ← d2 o3 o4
    if oh < 24 ∧ om < 60 then
      if sign = '+' then some ((oh * 3600 + om * 60 : Nat) : Int)
      else if sign = '-' then some (-((oh * 3600 + om * 60 : Nat) : Int))
      else none
    else none
  | _ => none

/-- Parse the `HH:MM:SS` time-of-day plus optional offset tail. -/
def parseClock : List Char → Option (Nat × Nat × Nat × Int)
  | h1 :: h2 :: ':' :: m1 :: m2 :: ':' :: s1 :: s2 :: rest => do
    let h ← d2 h1 h2
    let mi ← d2 m1 m2
    let s ← d2 s1 s2
    if h < 24 ∧ mi < 60 ∧ s < 60 then
      let off ← parseOffset rest
      some (h, mi, s, off)
    else none
  | _ => none

/-- Model of `datetime.fromisoformat` restricted to the shapes the chat
export uses: `YYYY-MM-DD`, optionally followed by `T` or a space and
`HH:MM:SS`, optionally followed by a `±HH:MM` offset.  Returns the
timestamp in whole seconds; invalid or unsupported strings parse to
`none` (the source catches the `ValueError`). -/
def fromIso (cs : List Char) : Option Int :=
  match cs with
  | y1 :: y2 :: y3 :: y4 :: '-' :: m1 :: m2 :: '-' :: dd1 :: dd2 :: rest => do
    let y ← d4 y1 y2 y3 y4
    let mo ← d2 m1 m2
    let da ← d2 dd1 dd2
    if 1 ≤ y ∧ 1 ≤ mo ∧ mo ≤ 12 ∧ 1 ≤ da ∧ da ≤ monthLen (leapYear y) mo then
      match rest with
      | [] => some (dateSeconds y mo da 0 0 0)
      | sep :: tail =>
        if sep = 'T' ∨ sep = ' ' then do
          let (h, mi, s, off) ← parseClock tail
          some (dateSeconds y mo da h mi s - off)
        else none
    else none
  | _ => none

/-- Model of Python `value.replace("Z", "+00:00")` (the pattern is a
single character, so this is a per-character substitution). -/
def replaceZ (s : String) : String :=
  ⟨(s.data.map (fun c => if c = 'Z' then ['+', '0', '0', ':', '0', '0'] else [c])).flatten⟩

/-- Embedding of `graph_builder._parse_date`: falsy input gives `None`,
otherwise `Z` is rewritten to `+00:00` and the ISO parse is attempted. -/
def parse_date (value : Option String) : Option Int :=
  match value with
  | none => none
  | some s => if s = "" then none else fromIso (replaceZ s).data

/-- Telegram forward-source / reaction-actor reference: either a raw
string (id or handle) or a structured blob with optional `id` /
`from_id` fields (`parser.Message.forwarded_from`, reaction `actor`). -/
inductive ActorRef where
  | raw (s : String)
  | blob (id from_id : Option String)
deriving DecidableEq

/-- Python truthiness of a forward/actor reference: an empty string is
falsy; a structured blob is modelled as truthy. -/
def refTruthy : ActorRef → Bool
  | .raw s => s ≠ ""
  | .blob _ _ => true

/-- Stand-in for Python `str(dict)` on a structured blob (the `repr`
string is never a catalog key, so its exact shape is immaterial). -/
def blobStr : Option String → Option String → String :=
  fun _ _ => "dict-repr"

/-- Embedding of the key extraction `str(fwd.get('id') or
fwd.get('from_id') or fwd)` used for forward sources and reaction
actors; a raw string is its own key. -/
def refKey : ActorRef → String
  | .raw s => s
  | .blob i f => pyGetOr (pyOr i f) (blobStr i f)

/-- Reaction record: only the `actor` field is read by the source. -/
structure Reaction where
  actor : Option ActorRef
deriving DecidableEq

/-- Embedding of `parser.Message` (the `text_entities` field is never
read by the embedded functions and is omitted; an absent reaction list
is the empty list, over which the source's loop is a no-op). -/
structure Message where
  id : Int
  date : Option String
  from_id : Option String
  from_name : Option String
  text : String
  reply_to : Option Int
  forwarded_from : Option ActorRef
  reactions : List Reaction
deriving DecidableEq

/-- Plain message constructor for concrete examples (no forward, no
reactions). -/
def mkMsg (id : Int) (date : Option String) (fid fname : Option String)
    (text : String) (rto : Option Int) : Message :=
  ⟨id, date, fid, fname, text, rto, none, []⟩

/-- Python truthiness of `m.reply_to` (`None` and `0` are falsy). -/
def replyTruthy (m : Message) : Bool :=
  match m.reply_to with
  | some r => decide (r ≠ 0)
  | none => false

/-- The reply-target id of a message (only read when `replyTruthy`). -/
def replyId (m : Message) : Int :=
  m.reply_to.getD 0

/-- Model of the dict comprehension `msg_map = {m.id: m for m in
messages}` followed by lookup: for duplicate ids the later message wins,
hence the search over the reversed list. -/
def msgLookup (msgs : List Message) (i : Int) : Option Message :=
  msgs.reverse.find? (fun m => decide (m.id = i))

/-- Stable insertion into an ascending list (model of one step of
Python's ascending `list.sort`). -/
def insertSorted (x : ℚ) : List ℚ → List ℚ
  | [] => [x]
  | y :: ys => if x ≤ y then x :: y :: ys else y :: insertSorted x ys

/-- Ascending sort of the delta sample (model of `deltas.sort()`). -/
def sortList (l : List ℚ) : List ℚ :=
  l.foldr insertSorted []

/-- The median selection of `compute_median_delta`: empty sample gives 0,
odd length gives the middle element of the sorted sample, even length
the mean of the two middle elements. -/
def medianOf (l : List ℚ) : ℚ :=
  if l = [] then 0
  else
    let ds := sortList l
    let mid := ds.length / 2
    if ds.length % 2 = 1 then ds.getD mid 0
    else (ds.getD (mid - 1) 0 + ds.getD mid 0) / 2

/-- One loop iteration of `compute_median_delta`: state is the collected
delta sample plus `prev_dt`, the parse of the previous message's date. -/
def mdStep (msgs : List Message) (st : List ℚ × Option Int) (m : Message) :
    List ℚ × Option Int :=
  match parse_date m.date with
  | none => (st.1, none)
  | some cur =>
    let ds :=
      if replyTruthy m ∧ (msgLookup msgs (replyId m)).isSome then
        match (msgLookup msgs (replyId m)).bind (fun tm => parse_date tm.date) with
        | some rd => if 0 ≤ cur - rd then st.1 ++ [((cur - rd : Int) : ℚ)] else st.1
        | none => st.1
      else
        match st.2 with
        | some pd => if 0 ≤ cur - pd then st.1 ++ [((cur - pd : Int) : ℚ)] else st.1
        | none => st.1
    (ds, some cur)

/-- The valid-delta sample collected by `compute_median_delta`. -/
def medianDeltas (msgs : List Message) : List ℚ :=
  (msgs.foldl (mdStep msgs) ([], none)).1

/-- Embedding of `graph_builder.compute_median_delta`. -/
def compute_median_delta (msgs : List Message) : ℚ :=
  medianOf (medianDeltas msgs)

/-- One edge of the interaction multigraph (`nx.MultiDiGraph` edge with a
`weight` attribute); parallel edges are distinct list entries. -/
structure Edge where
  src : String
  tgt : String
  weight : ℚ
deriving DecidableEq

/-- The interaction multigraph: node list in insertion order (without
duplicates, as networkx keeps it) and edge list in insertion order. -/
structure Graph where
  nodes : List String
  edges : List Edge
deriving DecidableEq

/-- networkx adds an endpoint as a node when it is not present yet. -/
def addNode (G : Graph) (n : String) : Graph :=
  if n ∈ G.nodes then G else ⟨G.nodes ++ [n], G.edges⟩

/-- Embedding of `G.add_edge(u, v, weight=w)` on a multigraph: both
endpoints become nodes, the edge is appended. -/
def add_edge (G : Graph) (u v : String) (w : ℚ) : Graph :=
  let G1 := addNode (addNode G u) v
  ⟨G1.nodes, G1.edges ++ [⟨u, v, w⟩]⟩

/-- Degree of a node of the directed multigraph (`G.degree(n)`:
out-edges plus in-edges, counting parallel edges). -/
def degree (G : Graph) (n : String) : Nat :=
  (G.edges.filter (fun e => decide (e.src = n))).length +
    (G.edges.filter (fun e => decide (e.tgt = n))).length

/-- Embedding of `INTERACTION_WEIGHTS` (a string-keyed dict of the five
fixed interaction weights; 0 for a missing key, which is never looked
up). -/
def INTERACTION_WEIGHTS (k : String) : ℚ :=
  if k = "reply" then 1
  else if k = "mention" then 1 / 2
  else if k = "forward" then 7 / 10
  else if k = "reaction" then 3 / 10
  else if k = "temporal" then 1 / 5
  else 0

/-- Embedding of the shared author / reply-target / temporal-previous
resolution of `build_graph` (lines 66-74, 78-87, 124-129): when the raw
name is falsy, lowercases to `"user"`, or equals `"Unknown"` exactly,
and an id is present (truthy), it is looked up in the id catalog and
then, falling through falsy values, in the handle catalog keyed by the
same id; otherwise the raw name is kept unchanged. -/
def resolve_name (um unm : List (String × String)) (name fid : Option String) :
    Option String :=
  if strTruthy name = false ∨ pyLower (name.getD "") = "user" ∨ name = some "Unknown" then
    if strTruthy fid then pyOr (sget um (fid.getD "")) (sget unm (fid.getD ""))
    else name
  else name

/-- Reply-edge block of `build_graph` (lines 75-89). -/
def replyStep (msgs : List Message) (um unm : List (String × String))
    (author : String) (m : Message) (G : Graph) : Graph :=
  if replyTruthy m then
    match msgLookup msgs (replyId m) with
    | some tm =>
      match resolve_name um unm tm.from_name tm.from_id with
      | some t =>
        if t ≠ "" ∧ pyLower t ≠ "user" ∧ t ≠ author then
          add_edge G author t (INTERACTION_WEIGHTS "reply")
        else G
      | none => G
    | none => G
  else G

/-- Mention handling of one whitespace token (lines 93-97). -/
def mentionWord (unm : List (String × String)) (author : String)
    (G : Graph) (word : String) : Graph :=
  if pyStartsAt word then
    let nick := pyRstripPunct ⟨word.data.drop 1⟩
    let target := (sget unm nick).getD nick
    if pyLower target ≠ "user" ∧ target ≠ author then
      add_edge G author target (INTERACTION_WEIGHTS "mention")
    else G
  else G

/-- Mention-edge block of `build_graph` (lines 90-97). -/
def mentionStep (unm : List (String × String)) (author : String)
    (m : Message) (G : Graph) : Graph :=
  if pyContains m.text '@' then (pySplitWs m.text).foldl (mentionWord unm author) G
  else G

/-- Forward-edge block of `build_graph` (lines 98-106). -/
def fwdStep (um unm : List (String × String)) (author : String)
    (m : Message) (G : Graph) : Graph :=
  match m.forwarded_from with
  | some fwd =>
    if refTruthy fwd then
      let key := refKey fwd
      let target := pyGetOr (pyOr (sget um key) (sget unm (pyLstripAt key))) "Unknown"
      if pyLower target ≠ "user" ∧ target ≠ "Unknown" ∧ target ≠ author then
        add_edge G author target (INTERACTION_WEIGHTS "forward")
      else G
    else G
  | none => G

/-- Reaction handling of one reaction record (lines 108-117). -/
def reactOne (um unm : List (String × String)) (author : String)
    (G : Graph) (r : Reaction) : Graph :=
  match r.actor with
  | some a =>
    if refTruthy a then
      let key := refKey a
      let an := pyGetOr (pyOr (sget um key) (sget unm (pyLstripAt key))) "Unknown"
      if pyLower an ≠ "user" ∧ an ≠ "Unknown" ∧ an ≠ author then
        add_edge G an author (INTERACTION_WEIGHTS "reaction")
      else G
    else G
  | none => G

/-- Reaction-edge block of `build_graph` (lines 107-117). -/
def reactStep (um unm : List (String × String)) (author : String)
    (m : Message) (G : Graph) : Graph :=
  m.reactions.foldl (reactOne um unm author) G

/-- Temporal-edge block of `build_graph` (lines 118-135). -/
def temporalStep (um unm : List (String × String)) (median : ℚ)
    (author : String) (last : Option Message) (m : Message) (G : Graph) : Graph :=
  match last with
  | some lm =>
    if median > 0 then
      match parse_date m.date, parse_date lm.date with
      | some cur, some prev =>
        if 0 ≤ cur - prev ∧ ((cur - prev : Int) : ℚ) ≤ median then
          match resolve_name um unm lm.from_name lm.from_id with
          | some pa =>
            if pa ≠ "" ∧ pyLower pa ≠ "user" ∧ pa ≠ author then
              add_edge G author pa (INTERACTION_WEIGHTS "temporal")
            else G
          | none => G
        else G
      | _, _ => G
    else G
  | none => G

/-- One iteration of the message loop of `build_graph` (lines 65-136):
resolve the author; when the resolved author is falsy, only update
`last_message`; otherwise run the five edge blocks in source order and
update `last_message`. -/
def processMessage (msgs : List Message) (um unm : List (String × String))
    (median : ℚ) (st : Graph × Option Message) (m : Message) :
    Graph × Option Message :=
  match resolve_name um unm m.from_name m.from_id with
  | some a =>
    if a ≠ "" then
      let G := replyStep msgs um unm a m st.1
      let G := mentionStep unm a m G
      let G := fwdStep um unm a m G
      let G := reactStep um unm a m G
      let G := temporalStep um unm median a st.2 m G
      (G, some m)
    else (st.1, some m)
  | none => (st.1, some m)

/-- Pruning step of `build_graph` (lines 137-143): the removal list is
computed over the finished graph (degree 0, empty name, or the
`"Unknown"` sentinel), then those nodes and their incident edges are
removed. -/
def pruneGraph (G : Graph) : Graph :=
  let rem := G.nodes.filter (fun n => decide (degree G n = 0 ∨ n = "" ∨ n = "Unknown"))
  ⟨G.nodes.filter (fun n => decide (n ∉ rem)),
   G.edges.filter (fun e => decide (e.src ∉ rem ∧ e.tgt ∉ rem))⟩

/-- Embedding of `graph_builder.build_graph`. -/
def build_graph (msgs : List Message) (median : ℚ)
    (um unm : List (String × String)) : Graph :=
  pruneGraph (msgs.foldl (processMessage msgs um unm median) (⟨[], []⟩, none)).1

/-- Damping factor of `_simple_pagerank` (`alpha = 0.85`). -/
def prAlpha : ℚ := 85 / 100

/-- L1 convergence tolerance of `_simple_pagerank` (`tol = 1e-6`). -/
def prTol : ℚ := 1 / 1000000

/-- Total outgoing edge weight of a node (`out_weight` of
`_simple_pagerank`). -/
def out_weight (es : List Edge) (u : String) : ℚ :=
  ((es.filter (fun e => decide (e.src = u))).map Edge.weight).sum

/-- Contribution of one in-edge in the power-iteration update: skipped
when the source has zero out-weight. -/
def prContrib (es : List Edge) (prev : String → ℚ) (e : Edge) : ℚ :=
  if out_weight es e.src ≠ 0 then prAlpha * prev e.src * e.weight / out_weight es e.src
  else 0

/-- Rank mass of dangling nodes, damped and spread uniformly
(`dangling_sum` of `_simple_pagerank`). -/
def danglingSum (ns : List String) (es : List Edge) (prev : String → ℚ) : ℚ :=
  prAlpha * ((ns.filter (fun u => decide (out_weight es u = 0))).map prev).sum / ns.length

/-- One power-iteration step of `_simple_pagerank` (the rank dict is
modelled as a total function; only values at graph nodes are read). -/
def prStep (ns : List String) (es : List Edge) (prev : String → ℚ) : String → ℚ :=
  fun v =>
    (1 - prAlpha) / ns.length + danglingSum ns es prev +
      ((es.filter (fun e => decide (e.tgt = v))).map (prContrib es prev)).sum

/-- L1 distance of two rank assignments over the node list (the
convergence check of `_simple_pagerank`). -/
def prErr (ns : List String) (a b : String → ℚ) : ℚ :=
  (ns.map (fun u => |a u - b u|)).sum

/-- The iteration loop of `_simple_pagerank`: up to `fuel` steps,
stopping early when the L1 change falls below the tolerance. -/
def prLoop (ns : List String) (es : List Edge) : Nat → (String → ℚ) → (String → ℚ)
  | 0, r => r
  | Nat.succ f, r =>
    let r' := prStep ns es r
    if prErr ns r' r < prTol then r' else prLoop ns es f r'

/-- Embedding of `metrics._simple_pagerank` with its default arguments
(`nodes = None`, so the iteration runs over all graph nodes; an empty
graph returns the empty dict, modelled as the zero assignment). -/
def simple_pagerank (G : Graph) : String → ℚ :=
  if G.nodes.length = 0 then fun _ => 0
  else prLoop G.nodes G.edges 100 (fun _ => 1 / (G.nodes.length : ℚ))

/-- The metrics dict of `metrics.compute_metrics`: `nodes` and `edges`
are always present, every other key only for a nonempty graph, hence the
`Option` fields. -/
structure MetricsMap where
  nodes : Nat
  edges : Nat
  avg_degree : Option ℚ
  degree_centrality : Option (String → ℚ)
  betweenness_centrality : Option (String → ℚ)
  closeness_centrality : Option (String → ℚ)
  pagerank : Option (String → ℚ)
  clusters : Option Nat
  diameter : Option Nat

/-- Embedding of `metrics.compute_metrics`.  The networkx algorithms it
calls (degree/betweenness/closeness centrality, `nx.pagerank` with its
`_simple_pagerank` fallback, `louvain_communities`, `nx.diameter`) are
external library code and are passed as oracle parameters; the two
fallible ones (`louvain`, `diam`) return `Except`, modelling the
source's `try/except` blocks that degrade to 0. -/
def compute_metrics (degC betC cloC prC : Graph → String → ℚ)
    (louvain diam : Graph → Except String Nat) (G : Graph) : MetricsMap :=
  if G.nodes.length = 0 then
    ⟨G.nodes.length, G.edges.length, none, none, none, none, none, none, none⟩
  else
    ⟨G.nodes.length, G.edges.length,
     some ((G.nodes.map (fun n => (degree G n : ℚ))).sum / (G.nodes.length : ℚ)),
     some (degC G), some (betC G), some (cloC G), some (prC G),
     some (match louvain G with | Except.ok k => k | Except.error _ => 0),
     some (match diam G with | Except.ok d => d | Except.error _ => 0)⟩

/-- Python dict lookup, modelled on an association list (keys unique,
first match). -/
def pget {κ : Type} [DecidableEq κ] : List (κ × ℚ) → κ → Option ℚ
  | [], _ => none
  | p :: t, k => if p.1 = k then some p.2 else pget t k

/-- Python dict assignment `m[k] = v`: replace in place when the key
exists, append otherwise (insertion order preserved). -/
def pset {κ : Type} [DecidableEq κ] (m : List (κ × ℚ)) (k : κ) (v : ℚ) :
    List (κ × ℚ) :=
  if (pget m k).isSome then m.map (fun p => if p.1 = k then (k, v) else p)
  else m ++ [(k, v)]

/-- One edge of the aggregation loop of `compute_interaction_strengths`:
skip the edge when either endpoint fails the sanitization predicate,
else add its weight to the ordered pair's entry. -/
def cisStep (st : List ((String × String) × ℚ)) (e : Edge) :
    List ((String × String) × ℚ) :=
  if sanitize_text e.src = "" ∨ sanitize_text e.tgt = "" then st
  else pset st (e.src, e.tgt) ((pget st (e.src, e.tgt)).getD 0 + e.weight)

/-- Embedding of `metrics.compute_interaction_strengths`. -/
def compute_interaction_strengths (G : Graph) : List ((String × String) × ℚ) :=
  G.edges.foldl cisStep []

/-- One edge of the aggregation loop of `compute_node_strengths`: the
weight is added at the source and at the target, each guarded by the
sanitization predicate on that endpoint alone. -/
def cnsStep (st : List (String × ℚ)) (e : Edge) : List (String × ℚ) :=
  let st1 :=
    if sanitize_text e.src ≠ "" then pset st e.src ((pget st e.src).getD 0 + e.weight)
    else st
  if sanitize_text e.tgt ≠ "" then pset st1 e.tgt ((pget st1 e.tgt).getD 0 + e.weight)
  else st1

/-- Embedding of `metrics.compute_node_strengths`. -/
def compute_node_strengths (G : Graph) : List (String × ℚ) :=
  G.edges.foldl cnsStep []

/-- Sum of the weights of the parallel edges from `u` to `v`. -/
def edgePairSum (es : List Edge) (u v : String) : ℚ :=
  ((es.filter (fun e => decide (e.src = u ∧ e.tgt = v))).map Edge.weight).sum

/-- Sum of the weights of the edges incident to `u` in either direction
(a self-loop counts in both roles, as in the source's loop). -/
def incidentSum (es : List Edge) (u : String) : ℚ :=
  ((es.filter (fun e => decide (e.src = u))).map Edge.weight).sum +
    ((es.filter (fun e => decide (e.tgt = u))).map Edge.weight).sum

/-- Sum of all pair strengths involving `u` in either position, read off
the strength map. -/
def pairInvolvSum (m : List ((String × String) × ℚ)) (u : String) : ℚ :=
  ((m.filter (fun p => decide (p.1.1 = u ∨ p.1.2 = u))).map Prod.snd).sum

/-- Specification-side per-message delta, following the claim's words as
amended: a message with a parseable timestamp that replies to a message
present in the batch contributes (message time − replied-to time) when
the replied-to timestamp parses and nothing otherwise (no fallback);
a non-reply contributes (message time − predecessor time) when the
predecessor exists and parses; negative deltas are excluded. -/
def specDelta (msgs : List Message) (prev : Option Message) (m : Message) : Option ℚ :=
  match parse_date m.date with
  | none => none
  | some cur =>
    if replyTruthy m ∧ (msgLookup msgs (replyId m)).isSome then
      match (msgLookup msgs (replyId m)).bind (fun tm => parse_date tm.date) with
      | some rd => if 0 ≤ cur - rd then some ((cur - rd : Int) : ℚ) else none
      | none => none
    else
      match prev.bind (fun pm => parse_date pm.date) with
      | some pd => if 0 ≤ cur - pd then some ((cur - pd : Int) : ℚ) else none
      | none => none

/-- Specification-side per-message delta, following the claim's original
words: the reply delta is used exactly when the message replies to a
message present in the batch WHOSE TIMESTAMP PARSES; in every other case
(including a reply whose target timestamp does not parse) the delta
falls back to (message time − predecessor time). -/
def specDeltaClaimed (msgs : List Message) (prev : Option Message) (m : Message) :
    Option ℚ :=
  match parse_date m.date with
  | none => none
  | some cur =>
    match (if replyTruthy m then msgLookup msgs (replyId m) else none).bind
        (fun tm => parse_date tm.date) with
    | some rd => if 0 ≤ cur - rd then some ((cur - rd : Int) : ℚ) else none
    | none =>
      match prev.bind (fun pm => parse_date pm.date) with
      | some pd => if 0 ≤ cur - pd then some ((cur - pd : Int) : ℚ) else none
      | none => none

/-- Pair every message with its immediate predecessor in input order. -/
def withPred (msgs : List Message) : List (Option Message × Message) :=
  List.zip (none :: msgs.map some) msgs

/-- Specification-side median under the amended reading. -/
def specMedianAmended (msgs : List Message) : ℚ :=
  medianOf ((withPred msgs).filterMap (fun pr => specDelta msgs pr.1 pr.2))

/-- Specification-side median under the claim's original reading. -/
def specMedianClaimed (msgs : List Message) : ℚ :=
  medianOf ((withPred msgs).filterMap (fun pr => specDeltaClaimed msgs pr.1 pr.2))

/-- Specification-side author resolution, following the claim's original
words: the raw name is used verbatim when present and not equal
case-insensitively to the placeholder sentinel nor to the `"Unknown"`
marker; otherwise, when an id is present, the id catalog is consulted
and then the handle catalog keyed by the same id; otherwise the
reference is unresolved. -/
def specResolveClaimed (um unm : List (String × String)) (name fid : Option String) :
    Option String :=
  match name with
  | some s =>
    if s ≠ "" ∧ pyLower s ≠ "user" ∧ pyLower s ≠ "unknown" then some s
    else if strTruthy fid then pyOr (sget um (fid.getD "")) (sget unm (fid.getD ""))
    else none
  | none =>
    if strTruthy fid then pyOr (sget um (fid.getD "")) (sget unm (fid.getD ""))
    else none

/-! ## Concrete inputs used by the claims -/

/-- Three-message scenario of the end-to-end claim: Alice greets, Bob
replies mentioning Alice, Alice replies to Bob. -/
def msgsC7 : List Message :=
  [mkMsg 1 none none (some "Alice") "hello" none,
   mkMsg 2 none none (some "Bob") "hi @Alice" (some 1),
   mkMsg 3 none none (some "Alice") "" (some 2)]

/-- Median-estimator input: an unparseable first timestamp, then two
parseable ones five seconds apart, the third message replying to the
first. -/
def msgsC1 : List Message :=
  [mkMsg 1 (some "notadate") none (some "A") "" none,
   mkMsg 2 (some "2024-01-01T10:00:00") none (some "B") "" none,
   mkMsg 3 (some "2024-01-01T10:00:05") none (some "C") "" (some 1)]

/-- A single message whose text is the bare token `@`: the mention edge
goes to the empty identity, which the pruning removes afterwards. -/
def mC2 : Message := mkMsg 1 none none (some "Alice") "@" none

/-- A single message whose author is the raw placeholder `"user"` with
no id and a mention of `alice` in the text. -/
def mC3 : Message := mkMsg 1 none none (some "user") "hi @alice" none

/-- The edge invariant of the builder: the weight is one of the five
fixed interaction weights and the edge is not a self-loop. -/
def edgeOk (e : Edge) : Prop :=
  (e.weight = 1 ∨ e.weight = 1 / 2 ∨ e.weight = 7 / 10 ∨ e.weight = 3 / 10 ∨
    e.weight = 1 / 5) ∧ e.src ≠ e.tgt

/-! ## Claim theorems -/

/-- C7: on the three-message scenario (Alice: "hello"; Bob replies to 1
with "hi @Alice"; Alice replies to 2), `build_graph` composed with the
pipeline's median produces exactly the nodes Bob and Alice, the edge
list [reply Bob→Alice weight 1, mention Bob→Alice weight 1/2, reply
Alice→Bob weight 1], and `compute_interaction_strengths` aggregates
strength(Bob,Alice) = 3/2 and strength(Alice,Bob) = 1 (and nothing
else). -/
theorem c7_end_to_end :
    (build_graph msgsC7 (compute_median_delta msgsC7) [] []).nodes = ["Bob", "Alice"] ∧
    (build_graph msgsC7 (compute_median_delta msgsC7) [] []).edges =
      [⟨"Bob", "Alice", 1⟩, ⟨"Bob", "Alice", 1 / 2⟩, ⟨"Alice", "Bob", 1⟩] ∧
    compute_interaction_strengths (build_graph msgsC7 (compute_median_delta msgsC7) [] []) =
      [(("Bob", "Alice"), 3 / 2), (("Alice", "Bob"), 1)] := by
  with_unfolding_all decide

/-- C2 (code bug): the claim says every node of the returned graph has
degree at least 1, but on a message from Alice whose text is `@` the
code records a mention edge to the empty identity, prunes the empty
node (the removal list is computed before any removal), and returns
Alice as an isolated node of degree 0. -/
theorem c2_isolated_node_survives :
    build_graph [mC2] 0 [] [] = ⟨["Alice"], []⟩ ∧
    degree (build_graph [mC2] 0 [] []) "Alice" = 0 := by
  decide

/-- C3 (code bug): the claim says an unresolvable author (placeholder
raw name, no id) contributes zero edges and never appears as a node,
but the code only re-checks the `"user"` sentinel for targets, not for
the author, and the pruning removes only `"Unknown"` and empty names:
the message with raw author `"user"` and text `"hi @alice"` yields the
edge user→alice and the node `"user"` in the returned graph. -/
theorem c3_placeholder_author_emits_edge :
    build_graph [mC3] 0 [] [] = ⟨["user", "alice"], [⟨"user", "alice", 1 / 2⟩]⟩ := by
  with_unfolding_all decide

/-- C4 counterexample: the claim's case-insensitive comparison against
the `"Unknown"` marker predicts that raw name `"unknown"` with id `7`
and catalog entry 7 ↦ Alice resolves to Alice, but the source compares
`"Unknown"` case-sensitively and keeps `"unknown"` verbatim. -/
theorem c4_counterexample :
    resolve_name [("7", "Alice")] [] (some "unknown") (some "7") = some "unknown" ∧
    specResolveClaimed [("7", "Alice")] [] (some "unknown") (some "7") = some "Alice" ∧
    resolve_name [("7", "Alice")] [] (some "unknown") (some "7") ≠
      specResolveClaimed [("7", "Alice")] [] (some "unknown") (some "7") := by
  decide

/-- C4 as amended: the raw display name is used verbatim when present
(truthy) and not equal case-insensitively to the placeholder sentinel
and not equal EXACTLY to the `"Unknown"` marker; in the remaining cases,
when an id is present the resolution is the id-catalog lookup falling
through (Python `or`) to the handle-catalog lookup keyed by the same
id.  The same function embeds the source's author, reply-target and
temporal-previous resolutions, which repeat the identical lines. -/
theorem c4_resolution_order (um unm : List (String × String))
    (name fid : Option String) :
    (∀ s : String, name = some s → s ≠ "" → pyLower s ≠ "user" → s ≠ "Unknown" →
      resolve_name um unm name fid = some s) ∧
    ((strTruthy name = false ∨ pyLower (name.getD "") = "user" ∨ name = some "Unknown") →
      strTruthy fid = true →
      resolve_name um unm name fid =
        pyOr (sget um (fid.getD "")) (sget unm (fid.getD ""))) := by
  constructor
  · intro s hs hne hlow hunk
    subst hs
    have hcond : ¬(strTruthy (some s) = false ∨ pyLower ((some s).getD "") = "user" ∨
        (some s : Option String) = some "Unknown") := by
      intro h
      rcases h with h | h | h
      · simp [strTruthy, hne] at h
      · exact hlow (by simpa using h)
      · exact hunk (by simpa using h)
    unfold resolve_name
    rw [if_neg hcond]
  · intro hcond hfid
    unfold resolve_name
    rw [if_pos hcond, if_pos hfid]

/-- Witness for the amended C4 theorem at concrete inputs: a plain raw
name is used verbatim, and a placeholder raw name with a cataloged id
resolves through the id catalog. -/
theorem c4_resolution_order_witness :
    resolve_name [] [] (some "Alice") none = some "Alice" ∧
    resolve_name [("7", "Bob")] [] (some "user") (some "7") = some "Bob" := by
  constructor
  · exact (c4_resolution_order [] [] (some "Alice") none).1 "Alice" rfl
      (by decide) (by decide) (by decide)
  · have h := (c4_resolution_order [("7", "Bob")] [] (some "user") (some "7")).2
      (by decide) (by decide)
    rw [h]
    decide

/-- C9: `compute_metrics` always reports the node and edge counts; on a
nonempty graph it also carries the average degree, the three centrality
mappings and the pagerank mapping, and whenever the community
partitioning or the diameter computation fails (the `try/except`
blocks), the corresponding entry degrades to 0 instead of propagating
the error (the embedding is total, so no error escapes). -/
theorem c9_metrics_degrade (degC betC cloC prC : Graph → String → ℚ)
    (louvain diam : Graph → Except String Nat) (G : Graph) :
    (compute_metrics degC betC cloC prC louvain diam G).nodes = G.nodes.length ∧
    (compute_metrics degC betC cloC prC louvain diam G).edges = G.edges.length ∧
    (G.nodes.length ≠ 0 →
      (compute_metrics degC betC cloC prC louvain diam G).avg_degree.isSome ∧
      (compute_metrics degC betC cloC prC louvain diam G).degree_centrality.isSome ∧
      (compute_metrics degC betC cloC prC louvain diam G).betweenness_centrality.isSome ∧
      (compute_metrics degC betC cloC prC louvain diam G).closeness_centrality.isSome ∧
      (compute_metrics degC betC cloC prC louvain diam G).pagerank.isSome ∧
      (∀ s, louvain G = Except.error s →
        (compute_metrics degC betC cloC prC louvain diam G).clusters = some 0) ∧
      (∀ s, diam G = Except.error s →
        (compute_metrics degC betC cloC prC louvain diam G).diameter = some 0)) := by
  unfold compute_metrics
  by_cases h : G.nodes.length = 0
  · simp [h]
  · rw [if_neg h]
    refine ⟨rfl, rfl, fun _ => ⟨rfl, rfl, rfl, rfl, rfl, ?_, ?_⟩⟩
    · intro s hs
      simp [hs]
    · intro s hs
      simp [hs]

/-- Witness for C9 on a singleton graph with oracles that fail both the
community partitioning and the diameter computation. -/
theorem c9_metrics_degrade_witness :
    ((1 : Nat) ≠ 0) ∧
    (compute_metrics (fun _ _ => 0) (fun _ _ => 0) (fun _ _ => 0) (fun _ _ => 0)
      (fun _ => Except.error "fail") (fun _ => Except.error "fail")
      ⟨["a"], []⟩).clusters = some 0 ∧
    (compute_metrics (fun _ _ => 0) (fun _ _ => 0) (fun _ _ => 0) (fun _ _ => 0)
      (fun _ => Except.error "fail") (fun _ => Except.error "fail")
      ⟨["a"], []⟩).diameter = some 0 := by
  refine ⟨by decide, ?_, ?_⟩
  · exact ((c9_metrics_degrade (fun _ _ => 0) (fun _ _ => 0) (fun _ _ => 0) (fun _ _ => 0)
      (fun _ => Except.error "fail") (fun _ => Except.error "fail")
      ⟨["a"], []⟩).2.2 (by decide)).2.2.2.2.2.1 "fail" rfl
  · exact ((c9_metrics_degrade (fun _ _ => 0) (fun _ _ => 0) (fun _ _ => 0) (fun _ _ => 0)
      (fun _ => Except.error "fail") (fun _ => Except.error "fail")
      ⟨["a"], []⟩).2.2 (by decide)).2.2.2.2.2.2 "fail" rfl

/-- One loop iteration of the median estimator equals the per-message
specification delta, provided the carried `prev_dt` is the parse of the
predecessor's date (which the loop maintains in both branches). -/
theorem mdStep_fst (msgs : List Message) (acc : List ℚ) (prevM : Option Message)
    (m : Message) :
    mdStep msgs (acc, prevM.bind (fun pm => parse_date pm.date)) m =
      (acc ++ (specDelta msgs prevM m).toList, parse_date m.date) := by
  unfold mdStep specDelta
  cases hcur : parse_date m.date with
  | none => simp
  | some cur =>
    dsimp only
    by_cases hrt : replyTruthy m = true ∧ (msgLookup msgs (replyId m)).isSome = true
    · rw [if_pos hrt, if_pos hrt]
      cases hb : (msgLookup msgs (replyId m)).bind (fun tm => parse_date tm.date) with
      | none => simp
      | some rd =>
        by_cases hge : 0 ≤ cur - rd
        · simp [hge]
        · simp [hge]
    · rw [if_neg hrt, if_neg hrt]
      cases hpd : prevM.bind (fun pm => parse_date pm.date) with
      | none => simp
      | some pd =>
        by_cases hge : 0 ≤ cur - pd
        · simp [hge]
        · simp [hge]

/-- The median estimator's fold over a message suffix, started from any
accumulator and the parse of the predecessor's date, appends exactly the
specification deltas of the suffix paired with their predecessors. -/
theorem mdFold_spec (msgs : List Message) (rest : List Message) :
    ∀ (acc : List ℚ) (prevM : Option Message),
      (rest.foldl (mdStep msgs) (acc, prevM.bind (fun pm => parse_date pm.date))).1 =
        acc ++ (List.zip (prevM :: rest.map some) rest).filterMap
          (fun pr => specDelta msgs pr.1 pr.2) := by
  induction rest with
  | nil => intro acc prevM; simp
  | cons m rest ih =>
    intro acc prevM
    rw [List.foldl_cons, mdStep_fst msgs acc prevM m]
    have hnext : parse_date m.date = (some m).bind (fun pm => parse_date pm.date) := rfl
    rw [hnext, ih (acc ++ (specDelta msgs prevM m).toList) (some m)]
    cases hd : specDelta msgs prevM m with
    | none =>
      simp only [List.map_cons, List.zip_cons_cons]
      simp [List.filterMap_cons, hd]
    | some d =>
      simp only [List.map_cons, List.zip_cons_cons]
      simp [List.filterMap_cons, hd]

/-- C1 counterexample: message 3 replies to message 1, which is present
in the batch but has an unparseable timestamp.  The claim's reading
falls back to the delta against the immediately preceding message 2
(5 seconds), but the source records nothing in that case, so the code
returns median 0 while the claimed definition returns 5. -/
theorem c1_counterexample :
    compute_median_delta msgsC1 = 0 ∧ specMedianClaimed msgsC1 = 5 ∧
    compute_median_delta msgsC1 ≠ specMedianClaimed msgsC1 := by
  with_unfolding_all decide

/-- C1 as amended: the median estimator returns the median of exactly
the per-message deltas in which a message with a parseable timestamp
that replies (truthy reply id) to a message present in the batch
contributes (message time − replied-to time) only when the replied-to
timestamp parses — with no fallback to the preceding-message delta
otherwise — and a non-reply contributes (message time − preceding
message's time) when that parses; negative and uncomputable deltas are
excluded; the median of an even-sized sample is the mean of the two
middle values and an empty sample yields 0. -/
theorem c1_median_amended (msgs : List Message) :
    compute_median_delta msgs = specMedianAmended msgs := by
  unfold compute_median_delta specMedianAmended medianDeltas withPred
  have h0 : (([], none) : List ℚ × Option Int) =
      (([] : List ℚ), (none : Option Message).bind (fun pm => parse_date pm.date)) := rfl
  rw [h0, mdFold_spec msgs msgs [] none]
  simp

/-- A fold preserves any invariant its step function preserves. -/
theorem foldl_inv {σ α : Type} (P : σ → Prop) (f : σ → α → σ)
    (h : ∀ s a, P s → P (f s a)) : ∀ (l : List α) (s : σ), P s → P (l.foldl f s) := by
  intro l
  induction l with
  | nil => intro s hs; exact hs
  | cons a t ih => intro s hs; exact ih (f s a) (h s a hs)

/-- Adding a node never changes the edge list. -/
theorem edges_addNode (G : Graph) (n : String) : (addNode G n).edges = G.edges := by
  unfold addNode
  split <;> rfl

/-- The edge list of `add_edge` is the old list plus the new edge. -/
theorem edges_add_edge (G : Graph) (u v : String) (w : ℚ) :
    (add_edge G u v w).edges = G.edges ++ [⟨u, v, w⟩] := by
  unfold add_edge
  dsimp only
  rw [edges_addNode, edges_addNode]

/-- `add_edge` preserves the edge invariant when the new edge satisfies
it. -/
theorem add_edge_ok {G : Graph} {u v : String} {w : ℚ}
    (hG : ∀ e ∈ G.edges, edgeOk e) (hok : edgeOk ⟨u, v, w⟩) :
    ∀ e ∈ (add_edge G u v w).edges, edgeOk e := by
  intro e he
  rw [edges_add_edge] at he
  rcases List.mem_append.1 he with h | h
  · exact hG e h
  · rcases List.mem_singleton.1 h with rfl
    exact hok

/-- The reply weight. -/
theorem w_reply : INTERACTION_WEIGHTS "reply" = 1 := by
  with_unfolding_all decide

/-- The mention weight. -/
theorem w_mention : INTERACTION_WEIGHTS "mention" = 1 / 2 := by
  with_unfolding_all decide

/-- The forward weight. -/
theorem w_forward : INTERACTION_WEIGHTS "forward" = 7 / 10 := by
  with_unfolding_all decide

/-- The reaction weight. -/
theorem w_reaction : INTERACTION_WEIGHTS "reaction" = 3 / 10 := by
  with_unfolding_all decide

/-- The temporal weight. -/
theorem w_temporal : INTERACTION_WEIGHTS "temporal" = 1 / 5 := by
  with_unfolding_all decide

/-- The reply block preserves the edge invariant. -/
theorem replyStep_ok (msgs : List Message) (um unm : List (String × String))
    (author : String) (m : Message) (G : Graph) (hG : ∀ e ∈ G.edges, edgeOk e) :
    ∀ e ∈ (replyStep msgs um unm author m G).edges, edgeOk e := by
  unfold replyStep
  repeat' split
  all_goals try exact hG
  rename_i h
  refine add_edge_ok hG ⟨Or.inl w_reply, ?_⟩
  exact fun hc => h.2.2 hc.symm

/-- The per-token mention handling preserves the edge invariant. -/
theorem mentionWord_ok (unm : List (String × String)) (author : String)
    (G : Graph) (word : String) (hG : ∀ e ∈ G.edges, edgeOk e) :
    ∀ e ∈ (mentionWord unm author G word).edges, edgeOk e := by
  unfold mentionWord
  dsimp only
  repeat' split
  all_goals try exact hG
  rename_i h
  refine add_edge_ok hG ⟨Or.inr (Or.inl w_mention), ?_⟩
  exact fun hc => h.2 hc.symm

/-- The mention block preserves the edge invariant. -/
theorem mentionStep_ok (unm : List (String × String)) (author : String)
    (m : Message) (G : Graph) (hG : ∀ e ∈ G.edges, edgeOk e) :
    ∀ e ∈ (mentionStep unm author m G).edges, edgeOk e := by
  unfold mentionStep
  split
  · exact foldl_inv (fun G => ∀ e ∈ G.edges, edgeOk e) (mentionWord unm author)
      (fun G w hg => mentionWord_ok unm author G w hg) (pySplitWs m.text) G hG
  · exact hG

/-- The forward block preserves the edge invariant. -/
theorem fwdStep_ok (um unm : List (String × String)) (author : String)
    (m : Message) (G : Graph) (hG : ∀ e ∈ G.edges, edgeOk e) :
    ∀ e ∈ (fwdStep um unm author m G).edges, edgeOk e := by
  unfold fwdStep
  dsimp only
  repeat' split
  all_goals try exact hG
  rename_i h
  refine add_edge_ok hG ⟨Or.inr (Or.inr (Or.inl w_forward)), ?_⟩
  exact fun hc => h.2.2 hc.symm

/-- The per-record reaction handling preserves the edge invariant. -/
theorem reactOne_ok (um unm : List (String × String)) (author : String)
    (G : Graph) (r : Reaction) (hG : ∀ e ∈ G.edges, edgeOk e) :
    ∀ e ∈ (reactOne um unm author G r).edges, edgeOk e := by
  unfold reactOne
  dsimp only
  repeat' split
  all_goals try exact hG
  rename_i h
  exact add_edge_ok hG ⟨Or.inr (Or.inr (Or.inr (Or.inl w_reaction))), h.2.2⟩

/-- The reaction block preserves the edge invariant. -/
theorem reactStep_ok (um unm : List (String × String)) (author : String)
    (m : Message) (G : Graph) (hG : ∀ e ∈ G.edges, edgeOk e) :
    ∀ e ∈ (reactStep um unm author m G).edges, edgeOk e := by
  unfold reactStep
  exact foldl_inv (fun G => ∀ e ∈ G.edges, edgeOk e) (reactOne um unm author)
    (fun G r hg => reactOne_ok um unm author G r hg) m.reactions G hG

/-- The temporal block preserves the edge invariant. -/
theorem temporalStep_ok (um unm : List (String × String)) (median : ℚ)
    (author : String) (last : Option Message) (m : Message) (G : Graph)
    (hG : ∀ e ∈ G.edges, edgeOk e) :
    ∀ e ∈ (temporalStep um unm median author last m G).edges, edgeOk e := by
  unfold temporalStep
  repeat' split
  all_goals try exact hG
  rename_i h
  refine add_edge_ok hG ⟨Or.inr (Or.inr (Or.inr (Or.inr w_temporal))), ?_⟩
  exact fun hc => h.2.2 hc.symm

/-- One message-loop iteration preserves the edge invariant. -/
theorem processMessage_ok (msgs : List Message) (um unm : List (String × String))
    (median : ℚ) (st : Graph × Option Message) (m : Message)
    (hG : ∀ e ∈ st.1.edges, edgeOk e) :
    ∀ e ∈ (processMessage msgs um unm median st m).1.edges, edgeOk e := by
  unfold processMessage
  split
  · split
    · exact temporalStep_ok um unm median _ st.2 m _
        (reactStep_ok um unm _ m _
          (fwdStep_ok um unm _ m _
            (mentionStep_ok unm _ m _
              (replyStep_ok msgs um unm _ m st.1 hG))))
    · exact hG
  · exact hG

/-- Pruning only removes edges. -/
theorem pruneGraph_edges_sub (G : Graph) :
    ∀ e ∈ (pruneGraph G).edges, e ∈ G.edges := by
  intro e he
  unfold pruneGraph at he
  exact (List.mem_filter.1 he).1

/-- C5: every edge of a graph returned by `build_graph` carries one of
the five fixed interaction weights (1, 1/2, 7/10, 3/10, 1/5 — the float
weights 1.0, 0.5, 0.7, 0.3, 0.2 as exact rationals) and is not a
self-loop, for every message list, median and pair of catalogs. -/
theorem c5_edge_weights_no_self_loop (msgs : List Message) (median : ℚ)
    (um unm : List (String × String)) (e : Edge)
    (he : e ∈ (build_graph msgs median um unm).edges) :
    (e.weight = 1 ∨ e.weight = 1 / 2 ∨ e.weight = 7 / 10 ∨ e.weight = 3 / 10 ∨
      e.weight = 1 / 5) ∧ e.src ≠ e.tgt := by
  have hfold : ∀ e ∈ (msgs.foldl (processMessage msgs um unm median)
      (⟨[], []⟩, none)).1.edges, edgeOk e :=
    foldl_inv (fun st => ∀ e ∈ st.1.edges, edgeOk e)
      (processMessage msgs um unm median)
      (fun st m h => processMessage_ok msgs um unm median st m h)
      msgs (⟨[], []⟩, none) (by intro e he; simp at he)
  exact hfold e (pruneGraph_edges_sub _ e he)

/-- Witness for C5: the reply edge of a two-message exchange is in the
built graph and the theorem applies to it. -/
theorem c5_edge_weights_no_self_loop_witness :
    ((⟨"B", "A", 1⟩ : Edge) ∈
      (build_graph [mkMsg 1 none none (some "A") "x" none,
        mkMsg 2 none none (some "B") "" (some 1)] 0 [] []).edges) ∧
    (((1 : ℚ) = 1 ∨ (1 : ℚ) = 1 / 2 ∨ (1 : ℚ) = 7 / 10 ∨ (1 : ℚ) = 3 / 10 ∨
      (1 : ℚ) = 1 / 5) ∧ "B" ≠ "A") :=
  ⟨by with_unfolding_all decide,
   c5_edge_weights_no_self_loop [mkMsg 1 none none (some "A") "x" none,
      mkMsg 2 none none (some "B") "" (some 1)] 0 [] [] ⟨"B", "A", 1⟩
      (by with_unfolding_all decide)⟩

/-- Lookup after the in-place-update branch of `pset`. -/
theorem pget_map_set {κ : Type} [DecidableEq κ] (m : List (κ × ℚ)) (k : κ) (v : ℚ) :
    pget (m.map (fun p => if p.1 = k then (k, v) else p)) k =
      if (pget m k).isSome then some v else none := by
  induction m with
  | nil => simp [pget]
  | cons p t ih =>
    by_cases hp : p.1 = k
    · simp [pget, hp]
    · simp [pget, hp, ih]

/-- Lookup after the append branch of `pset`. -/
theorem pget_append_single {κ : Type} [DecidableEq κ] (m : List (κ × ℚ)) (k : κ)
    (v : ℚ) (h : pget m k = none) : pget (m ++ [(k, v)]) k = some v := by
  induction m with
  | nil => simp [pget]
  | cons p t ih =>
    by_cases hp : p.1 = k
    · simp [pget, hp] at h
    · simp [pget, hp] at h ⊢
      exact ih h

/-- Setting a key makes lookup of that key return the new value. -/
theorem pget_pset_self {κ : Type} [DecidableEq κ] (m : List (κ × ℚ)) (k : κ) (v : ℚ) :
    pget (pset m k v) k = some v := by
  unfold pset
  split
  · rename_i h
    rw [pget_map_set, if_pos h]
  · rename_i h
    exact pget_append_single m k v (Option.not_isSome_iff_eq_none.1 h)

/-- The in-place-update branch of `pset` leaves other keys unchanged. -/
theorem pget_map_ne {κ : Type} [DecidableEq κ] (m : List (κ × ℚ)) (k k' : κ) (v : ℚ)
    (hne : k' ≠ k) :
    pget (m.map (fun p => if p.1 = k then (k, v) else p)) k' = pget m k' := by
  induction m with
  | nil => simp [pget]
  | cons p t ih =>
    by_cases hp : p.1 = k
    · have h1 : k ≠ k' := fun hc => hne hc.symm
      have h2 : ¬(p.1 = k') := by rw [hp]; exact h1
      simp [pget, hp, h1, h2, ih]
    · by_cases hq : p.1 = k'
      · simp [pget, hp, hq, hne]
      · simp [pget, hp, hq, ih]

/-- The append branch of `pset` leaves other keys unchanged. -/
theorem pget_append_ne {κ : Type} [DecidableEq κ] (m : List (κ × ℚ)) (k k' : κ) (v : ℚ)
    (hne : k' ≠ k) : pget (m ++ [(k, v)]) k' = pget m k' := by
  induction m with
  | nil =>
    have h1 : (k : κ) ≠ k' := fun hc => hne hc.symm
    simp [pget, h1]
  | cons p t ih =>
    by_cases hq : p.1 = k'
    · simp [pget, hq]
    · simp [pget, hq, ih]

/-- Setting a key leaves lookup of every other key unchanged. -/
theorem pget_pset_ne {κ : Type} [DecidableEq κ] (m : List (κ × ℚ)) (k k' : κ) (v : ℚ)
    (hne : k' ≠ k) : pget (pset m k v) k' = pget m k' := by
  unfold pset
  split
  · exact pget_map_ne m k k' v hne
  · exact pget_append_ne m k k' v hne

/-- The filter step of the pair-strength sum on a consed edge list. -/
theorem edgePairSum_cons (e : Edge) (es : List Edge) (u v : String) :
    edgePairSum (e :: es) u v =
      (if e.src = u ∧ e.tgt = v then e.weight else 0) + edgePairSum es u v := by
  by_cases hc : e.src = u ∧ e.tgt = v
  · simp [edgePairSum, List.filter_cons, hc]
  · simp [edgePairSum, List.filter_cons, hc]

/-- Invariant of the pair-strength fold: starting from a state whose
passing-pair values are `g` and which has no entry at any failing pair,
folding an edge list adds exactly the per-pair edge weight sums at
passing pairs and still creates no entry at failing pairs. -/
theorem cis_fold (es : List Edge) :
    ∀ (st : List ((String × String) × ℚ)) (g : String → String → ℚ),
      (∀ u v, sanitize_text u ≠ "" → sanitize_text v ≠ "" →
        (pget st (u, v)).getD 0 = g u v) →
      (∀ u v, sanitize_text u = "" ∨ sanitize_text v = "" →
        pget st (u, v) = none) →
      (∀ u v, sanitize_text u ≠ "" → sanitize_text v ≠ "" →
        (pget (es.foldl cisStep st) (u, v)).getD 0 = g u v + edgePairSum es u v) ∧
      (∀ u v, sanitize_text u = "" ∨ sanitize_text v = "" →
        pget (es.foldl cisStep st) (u, v) = none) := by
  induction es with
  | nil =>
    intro st g h1 h2
    refine ⟨fun u v hu hv => ?_, fun u v h => h2 u v h⟩
    simpa [edgePairSum] using h1 u v hu hv
  | cons e es ih =>
    intro st g h1 h2
    rw [List.foldl_cons]
    by_cases hc : sanitize_text e.src = "" ∨ sanitize_text e.tgt = ""
    · have hstep : cisStep st e = st := by
        unfold cisStep
        rw [if_pos hc]
      rw [hstep]
      have hih := ih st g h1 h2
      refine ⟨fun u v hu hv => ?_, hih.2⟩
      rw [hih.1 u v hu hv, edgePairSum_cons]
      have hne : ¬(e.src = u ∧ e.tgt = v) := by
        intro hmatch
        rcases hc with h | h
        · exact hu (hmatch.1 ▸ h)
        · exact hv (hmatch.2 ▸ h)
      rw [if_neg hne]
      ring
    · push_neg at hc
      have hstep : cisStep st e =
          pset st (e.src, e.tgt) ((pget st (e.src, e.tgt)).getD 0 + e.weight) := by
        unfold cisStep
        rw [if_neg]
        intro h
        rcases h with h | h
        · exact hc.1 h
        · exact hc.2 h
      rw [hstep]
      have h1' : ∀ u v, sanitize_text u ≠ "" → sanitize_text v ≠ "" →
          (pget (pset st (e.src, e.tgt) ((pget st (e.src, e.tgt)).getD 0 + e.weight))
            (u, v)).getD 0 =
            g u v + (if e.src = u ∧ e.tgt = v then e.weight else 0) := by
        intro u v hu hv
        by_cases hk : (u, v) = (e.src, e.tgt)
        · have hu' : u = e.src := (Prod.mk.injEq _ _ _ _ ▸ hk).1
          have hv' : v = e.tgt := (Prod.mk.injEq _ _ _ _ ▸ hk).2
          rw [hk, pget_pset_self]
          have : (e.src = u ∧ e.tgt = v) := ⟨hu'.symm, hv'.symm⟩
          rw [if_pos this]
          have := h1 u v hu hv
          rw [hu', hv'] at this ⊢
          rw [Option.getD_some, this]
        · rw [pget_pset_ne _ _ _ _ hk]
          have hne : ¬(e.src = u ∧ e.tgt = v) := by
            intro hmatch
            exact hk (by rw [hmatch.1, hmatch.2])
          rw [if_neg hne, h1 u v hu hv]
          ring
      have h2' : ∀ u v, sanitize_text u = "" ∨ sanitize_text v = "" →
          pget (pset st (e.src, e.tgt) ((pget st (e.src, e.tgt)).getD 0 + e.weight))
            (u, v) = none := by
        intro u v h
        have hk : (u, v) ≠ (e.src, e.tgt) := by
          intro hkk
          have hu' : u = e.src := (Prod.mk.injEq _ _ _ _ ▸ hkk).1
          have hv' : v = e.tgt := (Prod.mk.injEq _ _ _ _ ▸ hkk).2
          rcases h with h | h
          · exact hc.1 (hu' ▸ h)
          · exact hc.2 (hv' ▸ h)
        rw [pget_pset_ne _ _ _ _ hk]
        exact h2 u v h
      have hih := ih _ _ h1' h2'
      refine ⟨fun u v hu hv => ?_, hih.2⟩
      rw [hih.1 u v hu hv, edgePairSum_cons]
      ring

/-- C8: for every graph, `compute_interaction_strengths` maps each
ordered pair whose two identities both pass the display-sanitization
predicate to the sum of the weights of all parallel edges between that
ordered pair (0-by-absence when there is no such edge), and creates no
entry at any pair in which either endpoint fails the predicate. -/
theorem c8_pair_strengths (G : Graph) (u v : String) :
    (sanitize_text u ≠ "" → sanitize_text v ≠ "" →
      (pget (compute_interaction_strengths G) (u, v)).getD 0 = edgePairSum G.edges u v) ∧
    (sanitize_text u = "" ∨ sanitize_text v = "" →
      pget (compute_interaction_strengths G) (u, v) = none) := by
  have h := cis_fold G.edges [] (fun _ _ => 0)
    (fun u v _ _ => by simp [pget]) (fun u v _ => by simp [pget])
  exact ⟨fun hu hv => by simpa using h.1 u v hu hv, fun hf => h.2 u v hf⟩

/-- Witness for C8 on a two-edge graph: the Alice→Bob pair (both
passing) carries the summed weight, and the Alice→`"+"` pair (target
all-symbols, failing sanitization) has no entry although its edge
exists. -/
theorem c8_pair_strengths_witness :
    ((pget (compute_interaction_strengths
        ⟨["Alice", "Bob", "+"], [⟨"Alice", "Bob", 1⟩, ⟨"Alice", "+", 1⟩]⟩)
        ("Alice", "Bob")).getD 0 =
      edgePairSum [⟨"Alice", "Bob", 1⟩, ⟨"Alice", "+", 1⟩] "Alice" "Bob") ∧
    pget (compute_interaction_strengths
        ⟨["Alice", "Bob", "+"], [⟨"Alice", "Bob", 1⟩, ⟨"Alice", "+", 1⟩]⟩)
        ("Alice", "+") = none :=
  ⟨(c8_pair_strengths ⟨["Alice", "Bob", "+"], [⟨"Alice", "Bob", 1⟩, ⟨"Alice", "+", 1⟩]⟩
      "Alice" "Bob").1 (by with_unfolding_all decide) (by with_unfolding_all decide),
   (c8_pair_strengths ⟨["Alice", "Bob", "+"], [⟨"Alice", "Bob", 1⟩, ⟨"Alice", "+", 1⟩]⟩
      "Alice" "+").2 (by with_unfolding_all decide)⟩

/-- The filter step of the incident-weight sum on a consed edge list. -/
theorem incidentSum_cons (e : Edge) (es : List Edge) (u : String) :
    incidentSum (e :: es) u =
      (if e.src = u then e.weight else 0) + (if e.tgt = u then e.weight else 0) +
        incidentSum es u := by
  by_cases ha : e.src = u <;> by_cases hb : e.tgt = u <;>
    simp [incidentSum, List.filter_cons, ha, hb] <;> ring

/-- Value of one node-strength step at a passing node: the edge's weight
is added at its source and at its target, each only when that endpoint
passes the sanitization predicate (and a failing endpoint can never
equal a passing node). -/
theorem cnsStep_val (st : List (String × ℚ)) (g : String → ℚ)
    (h1 : ∀ u, sanitize_text u ≠ "" → (pget st u).getD 0 = g u) (e : Edge) :
    ∀ u, sanitize_text u ≠ "" → (pget (cnsStep st e) u).getD 0 =
      g u + (if e.src = u then e.weight else 0) + (if e.tgt = u then e.weight else 0) := by
  intro u hu
  unfold cnsStep
  by_cases ha : sanitize_text e.src ≠ "" <;> by_cases hb : sanitize_text e.tgt ≠ ""
  · rw [if_pos ha, if_pos hb]
    by_cases htu : e.tgt = u
    · subst htu
      rw [pget_pset_self, Option.getD_some]
      by_cases hst : e.src = e.tgt
      · rw [if_pos (hst.trans rfl)]
        rw [hst, pget_pset_self, Option.getD_some, h1 e.tgt hb]
        simp
        try ring
      · rw [if_neg hst, pget_pset_ne _ _ _ _ (fun hc => hst hc.symm), h1 e.tgt hb]
        simp
        try ring
    · rw [pget_pset_ne _ _ _ _ (fun hc => htu hc.symm), if_neg htu]
      by_cases hsu : e.src = u
      · subst hsu
        rw [pget_pset_self, Option.getD_some, h1 e.src ha]
        simp
        try ring
      · rw [pget_pset_ne _ _ _ _ (fun hc => hsu hc.symm), if_neg hsu, h1 u hu]
        ring
  · rw [if_pos ha, if_neg hb]
    have htu : e.tgt ≠ u := by
      intro hc
      rw [hc] at hb
      exact hb hu
    rw [if_neg htu]
    by_cases hsu : e.src = u
    · subst hsu
      rw [pget_pset_self, Option.getD_some, h1 e.src ha]
      simp
      try ring
    · rw [pget_pset_ne _ _ _ _ (fun hc => hsu hc.symm), if_neg hsu, h1 u hu]
      ring
  · rw [if_neg ha, if_pos hb]
    have hsu : e.src ≠ u := by
      intro hc
      rw [hc] at ha
      exact ha hu
    rw [if_neg hsu]
    by_cases htu : e.tgt = u
    · subst htu
      rw [pget_pset_self, Option.getD_some, h1 e.tgt hb]
      simp
      try ring
    · rw [pget_pset_ne _ _ _ _ (fun hc => htu hc.symm), if_neg htu, h1 u hu]
      ring
  · rw [if_neg ha, if_neg hb]
    have hsu : e.src ≠ u := by
      intro hc
      rw [hc] at ha
      exact ha hu
    have htu : e.tgt ≠ u := by
      intro hc
      rw [hc] at hb
      exact hb hu
    rw [if_neg hsu, if_neg htu, h1 u hu]
    ring

/-- Invariant of the node-strength fold at passing nodes. -/
theorem cns_fold (es : List Edge) :
    ∀ (st : List (String × ℚ)) (g : String → ℚ),
      (∀ u, sanitize_text u ≠ "" → (pget st u).getD 0 = g u) →
      (∀ u, sanitize_text u ≠ "" →
        (pget (es.foldl cnsStep st) u).getD 0 = g u + incidentSum es u) := by
  induction es with
  | nil =>
    intro st g h1 u hu
    simpa [incidentSum] using h1 u hu
  | cons e es ih =>
    intro st g h1 u hu
    rw [List.foldl_cons]
    have h1' := cnsStep_val st g h1 e
    rw [ih (cnsStep st e) _ h1' u hu, incidentSum_cons]
    ring

/-- C10: for every graph, `compute_node_strengths` assigns to every
identity that passes the sanitization predicate the sum of the weights
of all edges incident to it as source or as target — including edges
whose opposite endpoint fails the predicate — and consequently (second
conjunct, on a concrete graph whose only edge points at a failing
identity) a node's total strength can exceed the sum of all pair
strengths involving it in the map of `compute_interaction_strengths`. -/
theorem c10_node_strengths :
    (∀ (G : Graph) (u : String), sanitize_text u ≠ "" →
      (pget (compute_node_strengths G) u).getD 0 = incidentSum G.edges u) ∧
    (pget (compute_node_strengths ⟨["Alice", "+"], [⟨"Alice", "+", 1⟩]⟩) "Alice").getD 0 >
      pairInvolvSum (compute_interaction_strengths
        ⟨["Alice", "+"], [⟨"Alice", "+", 1⟩]⟩) "Alice" := by
  constructor
  · intro G u hu
    have h := cns_fold G.edges [] (fun _ => 0) (fun u _ => by simp [pget]) u hu
    simpa using h
  · with_unfolding_all decide

/-- Witness for C10's universal part at a concrete graph and node. -/
theorem c10_node_strengths_witness :
    (sanitize_text "Alice" ≠ "") ∧
    (pget (compute_node_strengths ⟨["Alice", "+"], [⟨"Alice", "+", 1⟩]⟩) "Alice").getD 0 =
      incidentSum (⟨["Alice", "+"], [⟨"Alice", "+", 1⟩]⟩ : Graph).edges "Alice" :=
  ⟨by with_unfolding_all decide,
   c10_node_strengths.1 ⟨["Alice", "+"], [⟨"Alice", "+", 1⟩]⟩ "Alice"
     (by with_unfolding_all decide)⟩

/-- Sum of a pointwise sum of two functions over a list. -/
theorem lsum_map_add {α : Type} (l : List α) (f g : α → ℚ) :
    (l.map (fun x => f x + g x)).sum = (l.map f).sum + (l.map g).sum := by
  induction l with
  | nil => simp
  | cons a t ih =>
    simp [ih]
    ring

/-- Sum of a constant over a list. -/
theorem lsum_map_const {α : Type} (l : List α) (c : ℚ) :
    (l.map (fun _ => c)).sum = l.length * c := by
  induction l with
  | nil => simp
  | cons a t ih =>
    simp [ih]
    ring

/-- A constant factors out of a mapped sum. -/
theorem lsum_map_mul_left {α : Type} (l : List α) (c : ℚ) (f : α → ℚ) :
    (l.map (fun x => c * f x)).sum = c * (l.map f).sum := by
  induction l with
  | nil => simp
  | cons a t ih =>
    simp [ih]
    ring

/-- A single-key indicator sums to zero when the key is absent. -/
theorem lsum_ite_zero {α : Type} [DecidableEq α] (ns : List α) (k : α) (c : ℚ)
    (hk : k ∉ ns) : (ns.map (fun u => if k = u then c else 0)).sum = 0 := by
  induction ns with
  | nil => simp
  | cons a t ih =>
    have h1 : k ≠ a := fun hc => hk (hc ▸ List.mem_cons_self a t)
    have h2 : k ∉ t := fun hc => hk (List.mem_cons_of_mem a hc)
    simp [h1, ih h2]

/-- A single-key indicator over a duplicate-free list containing the key
sums to the indicated value. -/
theorem lsum_ite_single {α : Type} [DecidableEq α] (ns : List α) (k : α) (c : ℚ)
    (hnd : ns.Nodup) (hk : k ∈ ns) :
    (ns.map (fun u => if k = u then c else 0)).sum = c := by
  induction ns with
  | nil => cases hk
  | cons a t ih =>
    rcases List.mem_cons.1 hk with rfl | hmem
    · have h2 : k ∉ t := (List.nodup_cons.1 hnd).1
      simp [lsum_ite_zero t k c h2]
    · have h1 : k ≠ a := by
        intro hc
        exact (List.nodup_cons.1 hnd).1 (hc ▸ hmem)
      simp [h1, ih (List.nodup_cons.1 hnd).2 hmem]

/-- Regrouping a sum over edges by a key that always lands in a
duplicate-free node list. -/
theorem lsum_group (ns : List String) (es : List Edge) (key : Edge → String)
    (f : Edge → ℚ) (hnd : ns.Nodup) (hkey : ∀ e ∈ es, key e ∈ ns) :
    (ns.map (fun u => ((es.filter (fun e => decide (key e = u))).map f).sum)).sum =
      (es.map f).sum := by
  induction es with
  | nil => simp
  | cons e es ih =>
    have h1 : ∀ u : String,
        (((e :: es).filter (fun x => decide (key x = u))).map f).sum =
          (if key e = u then f e else 0) +
            ((es.filter (fun x => decide (key x = u))).map f).sum := by
      intro u
      by_cases hc : key e = u <;> simp [List.filter_cons, hc]
    have h2 : ns.map (fun u => (((e :: es).filter (fun x => decide (key x = u))).map f).sum) =
        ns.map (fun u => (if key e = u then f e else 0) +
          ((es.filter (fun x => decide (key x = u))).map f).sum) :=
      List.map_congr_left (fun u _ => h1 u)
    rw [h2, lsum_map_add, lsum_ite_single ns (key e) (f e) hnd (hkey e (List.mem_cons_self e es)),
      ih (fun x hx => hkey x (List.mem_cons_of_mem e hx))]
    simp

/-- Sum of the iteration contributions of the edges leaving one node:
`prev u` when the node has nonzero out-weight (damped), 0 otherwise. -/
theorem lsum_src_contrib (esAll : List Edge) (es' : List Edge) (u : String)
    (prev : String → ℚ) (h : ∀ e ∈ es', e.src = u) :
    (es'.map (prContrib esAll prev)).sum =
      if out_weight esAll u ≠ 0 then
        prAlpha * prev u * ((es'.map Edge.weight).sum) / out_weight esAll u
      else 0 := by
  induction es' with
  | nil => by_cases hc : out_weight esAll u ≠ 0 <;> simp [hc]
  | cons e t ih =>
    have hu : e.src = u := h e (List.mem_cons_self e t)
    have ht : ∀ x ∈ t, x.src = u := fun x hx => h x (List.mem_cons_of_mem e hx)
    by_cases hc : out_weight esAll u ≠ 0
    · rw [List.map_cons, List.sum_cons, ih ht, if_pos hc, List.map_cons, List.sum_cons,
        if_pos hc]
      unfold prContrib
      rw [hu, if_pos hc]
      field_simp
      ring
    · rw [List.map_cons, List.sum_cons, ih ht, if_neg hc, if_neg hc]
      unfold prContrib
      rw [hu, if_neg hc]
      simp

/-- A filtered sum as a sum of indicators. -/
theorem lsum_filter_prop (ns : List String) (p : String → Prop) [DecidablePred p]
    (f : String → ℚ) :
    ((ns.filter (fun x => decide (p x))).map f).sum =
      (ns.map (fun x => if p x then f x else 0)).sum := by
  induction ns with
  | nil => simp
  | cons a t ih =>
    by_cases hc : p a <;> simp [List.filter_cons, hc, ih]

/-- One power-iteration step preserves total rank mass 1: the damped
teleport term contributes `1 − α`, the dangling redistribution returns
`α` times the dangling mass, and the edge propagation returns `α` times
the non-dangling mass. -/
theorem prStep_sum (ns : List String) (es : List Edge) (prev : String → ℚ)
    (hnd : ns.Nodup) (hne : ns ≠ []) (hsrc : ∀ e ∈ es, e.src ∈ ns)
    (htgt : ∀ e ∈ es, e.tgt ∈ ns) (hprev : (ns.map prev).sum = 1) :
    (ns.map (prStep ns es prev)).sum = 1 := by
  have hn : (ns.length : ℚ) ≠ 0 := by
    simpa using fun hc => hne (List.length_eq_zero.1 hc)
  have hsplit : ns.map (prStep ns es prev) =
      ns.map (fun v => ((1 - prAlpha) / ns.length + danglingSum ns es prev) +
        ((es.filter (fun e => decide (e.tgt = v))).map (prContrib es prev)).sum) := by
    apply List.map_congr_left
    intro v _
    unfold prStep
    ring
  rw [hsplit, lsum_map_add, lsum_map_const]
  rw [lsum_group ns es (fun e => e.tgt) (prContrib es prev) hnd htgt]
  have hgroup : (es.map (prContrib es prev)).sum =
      (ns.map (fun u => ((es.filter (fun e => decide (e.src = u))).map
        (prContrib es prev)).sum)).sum :=
    (lsum_group ns es (fun e => e.src) (prContrib es prev) hnd hsrc).symm
  have hsrcval : ns.map (fun u => ((es.filter (fun e => decide (e.src = u))).map
      (prContrib es prev)).sum) =
      ns.map (fun u => if out_weight es u ≠ 0 then prAlpha * prev u else 0) := by
    apply List.map_congr_left
    intro u _
    rw [lsum_src_contrib es (es.filter (fun e => decide (e.src = u))) u prev
      (fun e he => of_decide_eq_true (List.mem_filter.1 he).2)]
    by_cases hc : out_weight es u ≠ 0
    · rw [if_pos hc, if_pos hc]
      have hw : ((es.filter (fun e => decide (e.src = u))).map Edge.weight).sum =
          out_weight es u := rfl
      rw [hw]
      field_simp
    · rw [if_neg hc, if_neg hc]
  rw [hgroup, hsrcval]
  have hdang : (ns.length : ℚ) * danglingSum ns es prev =
      prAlpha * (ns.map (fun u => if out_weight es u = 0 then prev u else 0)).sum := by
    unfold danglingSum
    rw [lsum_filter_prop ns (fun u => out_weight es u = 0) prev]
    field_simp
    try ring
  have hjoin : (ns.map (fun u => if out_weight es u ≠ 0 then prAlpha * prev u else 0)).sum =
      prAlpha * ((ns.map prev).sum -
        (ns.map (fun u => if out_weight es u = 0 then prev u else 0)).sum) := by
    have hpt : ns.map prev = ns.map (fun u =>
        (if out_weight es u = 0 then prev u else 0) +
          (if out_weight es u ≠ 0 then prev u else 0)) := by
      apply List.map_congr_left
      intro u _
      by_cases hc : out_weight es u = 0 <;> simp [hc]
    have halpha : ns.map (fun u => if out_weight es u ≠ 0 then prAlpha * prev u else 0) =
        ns.map (fun u => prAlpha * (if out_weight es u ≠ 0 then prev u else 0)) := by
      apply List.map_congr_left
      intro u _
      by_cases hc : out_weight es u ≠ 0 <;> simp [hc]
    rw [halpha]
    rw [lsum_map_mul_left ns prAlpha (fun u => if out_weight es u ≠ 0 then prev u else 0)]
    rw [hpt, lsum_map_add]
    ring
  rw [mul_add, hdang, hjoin, hprev]
  have hA : (ns.length : ℚ) * ((1 - prAlpha) / ns.length) = 1 - prAlpha := by
    field_simp
  rw [hA]
  ring

/-- The iteration loop of `_simple_pagerank` preserves total rank mass
1 for any fuel, whether or not the convergence check stops it early. -/
theorem prLoop_sum (ns : List String) (es : List Edge) (hnd : ns.Nodup)
    (hne : ns ≠ []) (hsrc : ∀ e ∈ es, e.src ∈ ns) (htgt : ∀ e ∈ es, e.tgt ∈ ns) :
    ∀ (fuel : Nat) (r : String → ℚ), (ns.map r).sum = 1 →
      (ns.map (prLoop ns es fuel r)).sum = 1 := by
  intro fuel
  induction fuel with
  | zero => intro r hr; exact hr
  | succ f ih =>
    intro r hr
    unfold prLoop
    dsimp only
    split
    · exact prStep_sum ns es r hnd hne hsrc htgt hr
    · exact ih _ (prStep_sum ns es r hnd hne hsrc htgt hr)

/-- C6: over every nonempty graph (duplicate-free node list, every edge
endpoint a node, as networkx guarantees when the iteration runs over all
graph nodes), the PageRank values computed by `simple_pagerank`
(damping 85/100, 100 iterations, L1 tolerance 1/1000000, dangling mass
redistributed uniformly) sum to exactly 1 in the rational model — in
particular within the convergence tolerance of the float code. -/
theorem c6_pagerank_sums_to_one (G : Graph) (hne : G.nodes ≠ [])
    (hnd : G.nodes.Nodup) (hsrc : ∀ e ∈ G.edges, e.src ∈ G.nodes)
    (htgt : ∀ e ∈ G.edges, e.tgt ∈ G.nodes) :
    (G.nodes.map (simple_pagerank G)).sum = 1 := by
  have hlen : G.nodes.length ≠ 0 := fun hc => hne (List.length_eq_zero.1 hc)
  have hn : (G.nodes.length : ℚ) ≠ 0 := by simpa using hlen
  unfold simple_pagerank
  rw [if_neg hlen]
  apply prLoop_sum G.nodes G.edges hnd hne hsrc htgt 100
  rw [lsum_map_const]
  field_simp

/-- Witness for C6 on the two-node one-edge graph a→b. -/
theorem c6_pagerank_sums_to_one_witness :
    ((["a", "b"] : List String) ≠ [] ∧ (["a", "b"] : List String).Nodup) ∧
    ((⟨["a", "b"], [⟨"a", "b", 1⟩]⟩ : Graph).nodes.map
      (simple_pagerank ⟨["a", "b"], [⟨"a", "b", 1⟩]⟩)).sum = 1 :=
  ⟨⟨by decide, by decide⟩,
   c6_pagerank_sums_to_one ⟨["a", "b"], [⟨"a", "b", 1⟩]⟩ (by decide) (by decide)
     (by intro e he; fin_cases he <;> decide) (by intro e he; fin_cases he <;> decide)⟩

end TgGraph
